import Mathlib

/-!
# Verification of the Musare module-and-job orchestration core

Shallow embedding of the scheduling core of the repository:

* `Job` / `Job.execute` (backend/src/Job.ts),
* the `JobQueue` scheduler (`queueJob`, `_process`, `pause`, `resume`,
  completion handling), embedded as a state machine over `QueueState`,
* `ModuleManager.shutdown` order computation and `ModuleManager._startModule`
  (backend/src/ModuleManager.ts).

The JavaScript runtime is single-threaded and cooperative: all bookkeeping
mutations of the queue happen synchronously between suspension points, so the
queue is embedded as a transition system whose events are the synchronous
blocks of the source: a submission (`queueJob` followed by its `_process`
call), a job-completion handler (the `.finally` attached in `_process`,
followed by its `_process` call), `pause`, `resume`, and a module status
change.  The `_processLock` flag of the source only guards re-entrant calls
within one synchronous pass; at event boundaries it is always `false`, so it
does not appear in the state.
-/

namespace Musare

/-- Module statuses, from `BaseModule.ModuleStatus` as used by
`ModuleManager.ts` and the spec (§3): UNINITIALIZED, STARTING, STARTED,
ERROR, STOPPING, STOPPED, DISABLED. -/
inductive ModuleStatus
  | uninitialized
  | starting
  | started
  | error
  | stopping
  | stopped
  | disabled
deriving DecidableEq, Repr

/-- Job statuses, from the `JobStatus` enum in `Job.ts`
(QUEUED, ACTIVE, PAUSED, COMPLETED). -/
inductive JobStatus
  | queued
  | active
  | paused
  | completed
deriving DecidableEq, Repr

/-- Submission options, from the `JobOptions` type in `Job.ts`.  `session`
and `socketId` are modelled by their presence only; `payload` and `longJob`
are opaque to the scheduler and omitted. -/
structure JobOptions where
  priority : Option Int
  hasSession : Bool
  hasSocketId : Bool
  callbackRef : Option String
deriving DecidableEq, Repr

/-- A unit of work, from the fields of `Job` in `Job.ts` that the scheduler
reads or writes.  `uuid` stands for the string UUID (`generateUuid`), and
the monotonic clock (`performance.now()`) is a natural number. -/
structure Job where
  uuid : Nat
  priority : Int
  moduleId : Nat
  hasCallbackRef : Bool
  status : JobStatus
  createdAt : Nat
  startedAt : Option Nat
  completedAt : Option Nat
deriving DecidableEq, Repr

/-- The `Job` constructor (`Job.ts` lines 63-99): `_createdAt` is the clock,
`_priority` starts at the default constant `1` and is overwritten by
`options.priority` only when that value is truthy (`if (priority)`), the
status starts at QUEUED, and the context gets a callback reference only when
a session or socket id is present. -/
def mkJob (uuid : Nat) (now : Nat) (moduleId : Nat)
    (options : Option JobOptions) : Job :=
  let base : Job :=
    { uuid := uuid, priority := 1, moduleId := moduleId,
      hasCallbackRef := false, status := JobStatus.queued,
      createdAt := now, startedAt := none, completedAt := none }
  match options with
  | none => base
  | some o =>
    let withCb :=
      if o.hasSession || o.hasSocketId then
        { base with hasCallbackRef := o.callbackRef.isSome }
      else base
    match o.priority with
    | some p => if p ≠ 0 then { withCb with priority := p } else withCb
    | none => withCb

/-- `JobQueue.getJob` / the `_jobs` registry: `this._jobs.find(job =>
job.getUuid() === jobId)`. -/
def findJob (jobs : List Job) (u : Nat) : Option Job :=
  jobs.find? (fun j => j.uuid == u)

/-- Priority of the job with uuid `u` as read by the `_process` comparator
(`a.getPriority() - b.getPriority()`); `0` when the uuid is unknown. -/
def jobPriority (jobs : List Job) (u : Nat) : Int :=
  (findJob jobs u).elim 0 (fun j => j.priority)

/-- Module of the job with uuid `u` (`job.getModule()`); `0` when the uuid
is unknown. -/
def jobModuleId (jobs : List Job) (u : Nat) : Nat :=
  (findJob jobs u).elim 0 (fun j => j.moduleId)

/-- Status of the job with uuid `u`; `none` when the uuid is unknown. -/
def jobStatus (jobs : List Job) (u : Nat) : Option JobStatus :=
  (findJob jobs u).map (fun j => j.status)

/-- In-place mutation of the (shared) job object with uuid `u`: every alias
of the object sees the update, so the registry is the single store and the
queue arrays hold uuids. -/
def updateJob (jobs : List Job) (u : Nat) (f : Job → Job) : List Job :=
  jobs.map (fun j => if j.uuid == u then f j else j)

/-- The synchronous prelude of `Job.execute` as run by the dispatch pass:
`_setStatus(JobStatus.ACTIVE); this._startedAt = performance.now()`. -/
def startJob (now : Nat) (j : Job) : Job :=
  { j with status := JobStatus.active, startedAt := some now }

/-- The `finally` block of `Job.execute`: `_completedAt` is recorded and the
status becomes COMPLETED. -/
def finishJob (now : Nat) (j : Job) : Job :=
  { j with status := JobStatus.completed, completedAt := some now }

/-- Status lookup in the module registry (`ModuleManager.getModule`
composed with `getStatus`). -/
def moduleStatusOf (mods : List (Nat × ModuleStatus)) (m : Nat) :
    Option ModuleStatus :=
  (mods.find? (fun p => p.1 == m)).map (fun p => p.2)

/-- Modelled from the spec: `BaseModule.canRunJobs` is not under src/.  The
spec states that the dispatch pass skips any unit whose target subsystem's
status is not STARTED (§4.2) and that a unit enters `active` only when its
target subsystem reports itself able to run jobs (§3). -/
def canRunJobs (mods : List (Nat × ModuleStatus)) (m : Nat) : Bool :=
  moduleStatusOf mods m == some ModuleStatus.started

/-- Stable insertion of `u` behind every element whose priority is not
greater: together with `sortQueue` this embeds the in-place
`this._queue.sort((a, b) => a.getPriority() - b.getPriority())` of
`_process`, which ECMAScript 2019 requires to be a stable ascending sort. -/
def insertByPriority (jobs : List Job) (u : Nat) : List Nat → List Nat
  | [] => [u]
  | v :: vs =>
    if jobPriority jobs v ≤ jobPriority jobs u then
      v :: insertByPriority jobs u vs
    else u :: v :: vs

/-- Stable sort of the queued uuids by priority ascending (see
`insertByPriority`). -/
def sortQueue (jobs : List Job) (q : List Nat) : List Nat :=
  q.foldl (fun acc u => insertByPriority jobs u acc) []

/-- The `for` loop of `JobQueue._process` (part_003 lines 148-178).  The
loop index `i` runs over the *same* array that
`this._queue.splice(this._queue.indexOf(job), 1)` removes dispatched jobs
from (`jobs === this._queue` after the in-place sort), so removal shifts the
remaining elements under the index.  The splice of the first occurrence is
`List.erase`.  A dispatched job is pushed onto `_active`, its `execute()`
begins synchronously (`startJob`), and the loop breaks once
`this._active.length >= this._concurrency`.  Returns the final
(queue, active, registry).  The first argument is recursion fuel; the
caller passes the length of the array, which bounds the number of
iterations of the source loop, and `processLoop_fuel_enough` below shows
the result does not depend on the exact fuel once it is at least
`arr.length - i`. -/
def processLoop (mods : List (Nat × ModuleStatus)) (conc : Nat) (now : Nat) :
    Nat → List Nat → List Nat → List Job → Nat →
      List Nat × List Nat × List Job
  | 0, arr, act, jobs, _ => (arr, act, jobs)
  | fuel + 1, arr, act, jobs, i =>
    if h : i < arr.length then
      let u := arr.get ⟨i, h⟩
      if canRunJobs mods (jobModuleId jobs u) then
        let arr2 := arr.erase u
        let act2 := act ++ [u]
        let jobs2 := updateJob jobs u (startJob now)
        if conc ≤ act2.length then (arr2, act2, jobs2)
        else processLoop mods conc now fuel arr2 act2 jobs2 (i + 1)
      else processLoop mods conc now fuel arr act jobs (i + 1)
    else (arr, act, jobs)

/-- The scheduler state: the fields of `JobQueue` (part_003 lines 7-39)
together with the module-status registry (owned by `ModuleManager` in the
source) and the two generators the source draws from its environment, the
UUID supply and the monotonic clock. -/
structure QueueState where
  concurrency : Nat
  isPaused : Bool
  jobs : List Job
  queue : List Nat
  activeJobs : List Nat
  callbacks : List Nat
  modules : List (Nat × ModuleStatus)
  nextUuid : Nat
  now : Nat
deriving DecidableEq, Repr

/-- One dispatch pass, `JobQueue._process` (part_003 lines 128-182): no-op
when paused, at or above the concurrency bound, or with an empty queue;
otherwise sort the queue in place and run the dispatch loop. -/
def processPass (s : QueueState) : QueueState :=
  if s.isPaused || decide (s.concurrency ≤ s.activeJobs.length)
      || s.queue.isEmpty then s
  else
    let sorted := sortQueue s.jobs s.queue
    let r := processLoop s.modules s.concurrency s.now sorted.length sorted
      s.activeJobs s.jobs 0
    { s with queue := r.1, activeJobs := r.2.1, jobs := r.2.2 }

/-- The events of the scheduler: a submission (`queueJob`), the completion
handler of a dispatched job (the `.finally` in `_process`), `pause`,
`resume`, and a module status change (performed by the orchestrator in the
source). -/
inductive QOp
  | queueJob (moduleId : Nat) (options : Option JobOptions)
  | complete (uuid : Nat)
  | pause
  | resume
  | setModuleStatus (moduleId : Nat) (st : ModuleStatus)
deriving DecidableEq, Repr

/-- One synchronous event.

* `queueJob` (part_003 lines 99-123): looks the module up (`Module not
  found.` is thrown before any mutation otherwise), constructs the job,
  registers the callback, pushes the job onto `_jobs` and `_queue`, and runs
  `_process`.
* `complete u` (part_003 lines 161-175): the `.finally` handler of a
  dispatched job; it runs only for jobs that are in `_active`.  Just before
  it, the `finally` block of `Job.execute` marked the job COMPLETED
  (`finishJob`).  The handler deletes the callback, removes the job from
  `_active`, and runs `_process`.
* `pause` / `resume` (part_003 lines 56-66).
* `setModuleStatus`: a module changes status; the source does not trigger a
  dispatch pass for this. -/
def step (s : QueueState) (op : QOp) : QueueState :=
  match op with
  | QOp.queueJob m opts =>
    if (moduleStatusOf s.modules m).isSome then
      let j := mkJob s.nextUuid s.now m opts
      processPass { s with
        jobs := s.jobs ++ [j],
        queue := s.queue ++ [j.uuid],
        callbacks := s.callbacks ++ [j.uuid],
        nextUuid := s.nextUuid + 1,
        now := s.now + 1 }
    else { s with now := s.now + 1 }
  | QOp.complete u =>
    if s.activeJobs.contains u then
      processPass { s with
        jobs := updateJob s.jobs u (finishJob s.now),
        callbacks := s.callbacks.erase u,
        activeJobs := s.activeJobs.erase u,
        now := s.now + 1 }
    else { s with now := s.now + 1 }
  | QOp.pause => { s with isPaused := true, now := s.now + 1 }
  | QOp.resume => processPass { s with isPaused := false, now := s.now + 1 }
  | QOp.setModuleStatus m st =>
    { s with
      modules := s.modules.map (fun p => if p.1 == m then (p.1, st) else p),
      now := s.now + 1 }

/-- The `JobQueue` constructor (part_003 lines 31-39): concurrency 50,
paused, all registries empty. -/
def initState (mods : List (Nat × ModuleStatus)) : QueueState :=
  { concurrency := 50, isPaused := true, jobs := [], queue := [],
    activeJobs := [], callbacks := [], modules := mods, nextUuid := 0,
    now := 0 }

/-- Run a sequence of events from the freshly constructed queue. -/
def runOps (mods : List (Nat × ModuleStatus)) (ops : List QOp) : QueueState :=
  ops.foldl step (initState mods)

/-! ## The `Job.execute` lifecycle (`Job.ts` lines 191-265) -/

/-- Outcome of one of the three phases `_validate`, `_authorize`,
`_execute`, supplied by the concrete job subclass: either a thrown error
(message) or a value. -/
structure PhaseSpec where
  validate : Except String Unit
  authorize : Except String Unit
  run : Except String Nat
deriving Repr

/-- How the promise returned by `Job.execute` settles for its caller: an
`earlyThrow` is a rejection raised before the `try` block (so the `finally`
never runs), `failureThrown` is the rejection produced by the `throw error`
at the end of the `catch` block, and `success` is a resolution with the
phase-3 data. -/
inductive ExecResult
  | earlyThrow (message : String)
  | failureThrown (message : String)
  | success (data : Nat)
deriving DecidableEq, Repr

/-- Side effects of `Job.execute` that the spec talks about: the event-bus
publication keyed by the job's uuid, the log entry, and the statistics
updates. -/
inductive ExecEffect
  | publishedSuccess
  | publishedError
  | loggedSuccess
  | loggedError
  | statSuccessful
  | statFailed
  | statTotal
  | statDuration
deriving DecidableEq, Repr

/-- `Job.execute` (`Job.ts` lines 191-265).

* A job whose `_startedAt` is set throws `Job has already been executed.`
  before anything else.
* A job whose module cannot run jobs throws `Module can not currently run
  jobs.`; both of these happen before the `try`, so no phase runs and the
  job object is unchanged.
* Otherwise the status becomes ACTIVE and `_startedAt` is recorded; the
  three phases run in order; on the first error the `catch` block publishes
  (when a callback reference exists), logs, records the failure statistic,
  and **re-throws** the error; the `finally` block records `_completedAt`,
  the total and duration statistics, and sets the status to COMPLETED.

Returns (how the promise settles, the job object afterwards, effects). -/
def executeJob (canRun : Bool) (ph : PhaseSpec) (now : Nat) (j : Job) :
    ExecResult × Job × List ExecEffect :=
  if j.startedAt.isSome then
    (ExecResult.earlyThrow "Job has already been executed.", j, [])
  else if !canRun then
    (ExecResult.earlyThrow "Module can not currently run jobs.", j, [])
  else
    let j1 := startJob now j
    let phased : Except String Nat :=
      match ph.validate with
      | Except.error e => Except.error e
      | Except.ok _ =>
        match ph.authorize with
        | Except.error e => Except.error e
        | Except.ok _ => ph.run
    match phased with
    | Except.ok v =>
      (ExecResult.success v, finishJob now j1,
        (if j.hasCallbackRef then [ExecEffect.publishedSuccess] else []) ++
          [ExecEffect.loggedSuccess, ExecEffect.statSuccessful,
            ExecEffect.statTotal, ExecEffect.statDuration])
    | Except.error e =>
      (ExecResult.failureThrown e, finishJob now j1,
        (if j.hasCallbackRef then [ExecEffect.publishedError] else []) ++
          [ExecEffect.loggedError, ExecEffect.statFailed,
            ExecEffect.statTotal, ExecEffect.statDuration])

/-- How the dispatch pass routes the settled promise to the submitter's
callback: `job.execute().then(callback.resolve).catch(callback.reject)`
(part_003 lines 162-164). -/
inductive CallbackSignal
  | resolved (data : Nat)
  | rejected (message : String)
deriving DecidableEq, Repr

/-- `then(resolve)/catch(reject)` of part_003 lines 162-164. -/
def settleCallback (r : ExecResult) : CallbackSignal :=
  match r with
  | ExecResult.success v => CallbackSignal.resolved v
  | ExecResult.failureThrown e => CallbackSignal.rejected e
  | ExecResult.earlyThrow e => CallbackSignal.rejected e

/-- Rank of a job status along the lifecycle QUEUED → ACTIVE → COMPLETED.
(The PAUSED member of the enum is never assigned by the scheduling core.) -/
def statusRank (st : JobStatus) : Nat :=
  match st with
  | JobStatus.queued => 0
  | JobStatus.active => 1
  | JobStatus.paused => 1
  | JobStatus.completed => 2

/-- Rank of the status of uuid `u` in a queue state; a uuid that was never
registered counts as rank 0. -/
def statusRankOf (s : QueueState) (u : Nat) : Nat :=
  (jobStatus s.jobs u).elim 0 statusRank

/-! ## `ModuleManager` (`ModuleManager.ts`) -/

/-- A module as the orchestrator sees it: its status and the list returned
by `getDependentModules()`, which `_startModule` treats as the modules this
module depends on. -/
structure MMod where
  status : ModuleStatus
  deps : List String
deriving DecidableEq, Repr

/-- `ModuleManager.getModule` over the `Object.entries` registry. -/
def lookupMod (reg : List (String × MMod)) (name : String) : Option MMod :=
  (reg.find? (fun p => p.1 == name)).map (fun p => p.2)

/-- The statuses that participate in shutdown
(`ModuleManager.shutdown` lines 138-144). -/
def isRunningStatus (st : ModuleStatus) : Bool :=
  st == ModuleStatus.started || st == ModuleStatus.starting ||
    st == ModuleStatus.error

/-- One iteration of the `for` loop of `ModuleManager.shutdown` (lines
148-163): push the module's name if absent, splice out every dependency
already present, then push all dependencies at the end. -/
def shutdownOrderStep (order : List String) (entry : String × MMod) :
    List String :=
  let order1 := if order.contains entry.1 then order else order ++ [entry.1]
  let present := entry.2.deps.filter (fun d => order1.contains d)
  let order2 := present.foldl (fun acc d => acc.erase d) order1
  order2 ++ entry.2.deps

/-- `ModuleManager.shutdown` (lines 136-170): filter the registry to the
running modules, then fold the order-building loop; the modules are then
shut down sequentially in the computed order. -/
def computeShutdownOrder (reg : List (String × MMod)) : List String :=
  (reg.filter (fun p => isRunningStatus p.2.status)).foldl
    shutdownOrderStep []

/-- The property the spec claims of the computed order: a module is stopped
only after every running module that depends on it, and a module that never
started does not appear. -/
def shutdownRespectsDependents (reg : List (String × MMod))
    (order : List String) : Bool :=
  (reg.all fun p =>
    !isRunningStatus p.2.status ||
      p.2.deps.all fun d =>
        !(reg.any fun q => q.1 == d && isRunningStatus q.2.status) ||
          decide (order.indexOf p.1 < order.indexOf d)) &&
  (order.all fun n =>
    reg.any fun q => q.1 == n && isRunningStatus q.2.status)

/-- Errors of `ModuleManager._startModule`; `outOfFuel` stands for a
recursion that never returns (the source has no cycle detection, so on a
cyclic graph the recursion is unbounded). -/
inductive StartErr
  | depFailed
  | depUnavailable
  | depNotFound
  | startupFailed
  | outOfFuel
deriving DecidableEq, Repr

/-- Set the status of `name` in the registry. -/
def setModStatus (reg : List (String × MMod)) (name : String)
    (st : ModuleStatus) : List (String × MMod) :=
  reg.map (fun p => if p.1 == name then (p.1, { p.2 with status := st }) else p)

/-- The dependency loop of `_startModule` (lines 83-90): look each
dependency up (`Dependent module not found` otherwise) and start it with
the supplied starter. -/
def startDeps (f : List (String × MMod) → String →
      Except StartErr (List (String × MMod))) :
    List (String × MMod) → List String →
      Except StartErr (List (String × MMod))
  | reg, [] => Except.ok reg
  | reg, d :: ds =>
    match lookupMod reg d with
    | none => Except.error StartErr.depNotFound
    | some _ =>
      match f reg d with
      | Except.error e => Except.error e
      | Except.ok reg2 => startDeps f reg2 ds

/-- `ModuleManager._startModule` (lines 68-96), with explicit recursion
fuel: STARTING/STARTED is a no-op success, ERROR throws `Dependent module
failed to start`, STOPPING/STOPPED/DISABLED throws `Dependent module is
unavailable`, and otherwise every dependency is started recursively before
the module's own startup routine runs.  The startup routine itself
(`BaseModule.startup`) is not under src/ and is modelled from the spec:
on success the module is marked STARTED, on failure it is marked ERROR and
the error propagates (§4.1); `succeed` says which modules' startup routines
succeed. -/
def startModule (succeed : String → Bool) :
    Nat → List (String × MMod) → String →
      Except StartErr (List (String × MMod))
  | 0, _, _ => Except.error StartErr.outOfFuel
  | fuel + 1, reg, name =>
    match lookupMod reg name with
    | none => Except.error StartErr.depNotFound
    | some m =>
      match m.status with
      | ModuleStatus.starting => Except.ok reg
      | ModuleStatus.started => Except.ok reg
      | ModuleStatus.error => Except.error StartErr.depFailed
      | ModuleStatus.stopping => Except.error StartErr.depUnavailable
      | ModuleStatus.stopped => Except.error StartErr.depUnavailable
      | ModuleStatus.disabled => Except.error StartErr.depUnavailable
      | ModuleStatus.uninitialized =>
        match startDeps (startModule succeed fuel) reg m.deps with
        | Except.error e => Except.error e
        | Except.ok reg2 =>
          if succeed name then
            Except.ok (setModStatus reg2 name ModuleStatus.started)
          else Except.error StartErr.startupFailed

/-! ## Concrete inputs used by the counterexamples and witnesses -/

/-- A single module that is STARTED. -/
def mods0 : List (Nat × ModuleStatus) := [(0, ModuleStatus.started)]

/-- Submission options with priority 5 only. -/
def opts5 : JobOptions :=
  { priority := some 5, hasSession := false, hasSocketId := false,
    callbackRef := none }

/-- Submission options with priority 0 only. -/
def opts0 : JobOptions :=
  { priority := some 0, hasSession := false, hasSocketId := false,
    callbackRef := none }

/-- Two equal-priority submissions while paused, then resume: one dispatch
pass over a two-element queue of eligible jobs. -/
def opsTwoJobs : List QOp :=
  [QOp.queueJob 0 none, QOp.queueJob 0 none, QOp.resume]

/-- Three submissions while paused (priorities 1, 1, 5), then resume. -/
def opsThreeJobs : List QOp :=
  [QOp.queueJob 0 none, QOp.queueJob 0 none, QOp.queueJob 0 (some opts5),
    QOp.resume]

/-- A chain of three running modules: `a` depends on `b`, `b` depends on
`c`. -/
def chainReg : List (String × MMod) :=
  [("c", { status := ModuleStatus.started, deps := [] }),
   ("b", { status := ModuleStatus.started, deps := ["c"] }),
   ("a", { status := ModuleStatus.started, deps := ["b"] })]

/-- A two-module dependency cycle, both uninitialized. -/
def cycReg : List (String × MMod) :=
  [("a", { status := ModuleStatus.uninitialized, deps := ["b"] }),
   ("b", { status := ModuleStatus.uninitialized, deps := ["a"] })]

/-- Phases whose execute step throws. -/
def phFail : PhaseSpec :=
  { validate := Except.ok (), authorize := Except.ok (),
    run := Except.error "boom" }

/-- Phases that all succeed. -/
def phOk : PhaseSpec :=
  { validate := Except.ok (), authorize := Except.ok (),
    run := Except.ok 7 }

/-- A fresh queued job (uuid 0, module 0). -/
def freshJob : Job := mkJob 0 0 0 none

/-! ## Lemmas about the loop fuel -/

/-- The fuel argument of `processLoop` is inessential: every iteration of
the source loop increases `i` by one while the array never grows, so the
loop runs at most `arr.length - i` more times, and any fuel at least that
large (as supplied by `processPass`) computes the loop's true result. -/
theorem processLoop_fuel_enough (mods : List (Nat × ModuleStatus))
    (conc : Nat) (now : Nat) :
    ∀ fuel fuel2 arr act jobs i, arr.length - i ≤ fuel →
      arr.length - i ≤ fuel2 →
      processLoop mods conc now fuel arr act jobs i =
        processLoop mods conc now fuel2 arr act jobs i := by
  intro fuel
  induction fuel with
  | zero =>
    intro fuel2 arr act jobs i h1 _
    cases fuel2 with
    | zero => rfl
    | succ m =>
      simp only [processLoop]
      have : ¬ i < arr.length := by omega
      simp [this]
  | succ n ih =>
    intro fuel2 arr act jobs i h1 h2
    cases fuel2 with
    | zero =>
      simp only [processLoop]
      have : ¬ i < arr.length := by omega
      simp [this]
    | succ m =>
      simp only [processLoop]
      by_cases h : i < arr.length
      · simp only [h, dif_pos]
        set u := arr.get ⟨i, h⟩ with hu
        have hmem : u ∈ arr := arr.get_mem i h
        have herase : (arr.erase u).length = arr.length - 1 :=
          List.length_erase_of_mem hmem
        by_cases hcan : canRunJobs mods (jobModuleId jobs u)
        · simp only [hcan, if_pos]
          split
          · rfl
          · exact ih m (arr.erase u) (act ++ [u])
              (updateJob jobs u (startJob now)) (i + 1)
              (by omega) (by omega)
        · simp only [hcan, if_neg, not_false_iff]
          exact ih m arr act jobs (i + 1) (by omega) (by omega)
      · simp [h]

/-! ## Lemmas about the registry -/

/-- Looking a uuid up after an in-place update of another uuid's object is
unchanged, provided the update preserves the uuid. -/
theorem findJob_updateJob_ne (jobs : List Job) (u v : Nat) (f : Job → Job)
    (hf : ∀ j, (f j).uuid = j.uuid) (huv : u ≠ v) :
    findJob (updateJob jobs v f) u = findJob jobs u := by
  induction jobs with
  | nil => rfl
  | cons j rest ih =>
    simp only [updateJob, List.map_cons, findJob, List.find?_cons]
    by_cases hj : j.uuid == v
    · have hju : (f j).uuid = j.uuid := hf j
      have hne : ((f j).uuid == u) = (j.uuid == u) := by rw [hju]
      have hjv : j.uuid = v := by simpa using hj
      have : (j.uuid == u) = false := by
        simp [hjv]
        omega
      simp only [hj, if_pos, hne, this]
      simpa [updateJob, findJob] using ih
    · simp only [hj, if_neg, Bool.not_eq_true]
      by_cases hju : j.uuid == u
      · simp [hj, hju]
      · simp only [hj, hju]
        simpa [updateJob, findJob] using ih

/-- Looking the updated uuid up yields the updated object, provided the
update preserves the uuid. -/
theorem findJob_updateJob_self (jobs : List Job) (v : Nat) (f : Job → Job)
    (hf : ∀ j, (f j).uuid = j.uuid) (j : Job)
    (hfind : findJob jobs v = some j) :
    findJob (updateJob jobs v f) v = some (f j) := by
  induction jobs with
  | nil => simp [findJob] at hfind
  | cons a rest ih =>
    simp only [updateJob, List.map_cons, findJob, List.find?_cons]
    by_cases ha : a.uuid == v
    · have : (f a).uuid == v := by rw [hf a]; exact ha
      simp only [ha, if_pos, this]
      simp only [findJob, List.find?_cons, ha] at hfind
      simp at hfind
      rw [hfind]
    · have : (a.uuid == v) = false := by simpa using ha
      simp only [this, if_neg, Bool.false_eq_true, not_false_iff]
      simp only [findJob, List.find?_cons, this] at hfind
      simpa [updateJob, findJob] using ih hfind

/-- Updating a uuid that is not registered is a no-op. -/
theorem updateJob_not_found (jobs : List Job) (v : Nat) (f : Job → Job)
    (hfind : findJob jobs v = none) : updateJob jobs v f = jobs := by
  induction jobs with
  | nil => rfl
  | cons a rest ih =>
    simp only [findJob, List.find?_cons] at hfind
    by_cases ha : a.uuid == v
    · simp [ha] at hfind
    · have : (a.uuid == v) = false := by simpa using ha
      simp only [this] at hfind
      simp only [updateJob, List.map_cons, this, if_neg,
        Bool.false_eq_true, not_false_iff]
      show a :: updateJob rest v f = a :: rest
      rw [ih hfind]

/-- `startJob` preserves the identity fields of the job object. -/
theorem startJob_fields (now : Nat) (j : Job) :
    (startJob now j).uuid = j.uuid ∧ (startJob now j).moduleId = j.moduleId ∧
      (startJob now j).priority = j.priority ∧
      (startJob now j).createdAt = j.createdAt := by
  simp [startJob]

/-- `finishJob` preserves the identity fields of the job object. -/
theorem finishJob_fields (now : Nat) (j : Job) :
    (finishJob now j).uuid = j.uuid ∧
      (finishJob now j).moduleId = j.moduleId ∧
      (finishJob now j).priority = j.priority ∧
      (finishJob now j).createdAt = j.createdAt := by
  simp [finishJob]

/-- The module of a job is unchanged by an update that preserves uuid and
module. -/
theorem jobModuleId_updateJob (jobs : List Job) (u v : Nat) (f : Job → Job)
    (hf : ∀ j, (f j).uuid = j.uuid) (hm : ∀ j, (f j).moduleId = j.moduleId) :
    jobModuleId (updateJob jobs v f) u = jobModuleId jobs u := by
  by_cases huv : u = v
  · subst huv
    cases hfind : findJob jobs u with
    | none => rw [updateJob_not_found jobs u f hfind]
    | some j =>
      rw [jobModuleId, jobModuleId, hfind,
        findJob_updateJob_self jobs u f hf j hfind]
      simp [hm j]
  · rw [jobModuleId, jobModuleId, findJob_updateJob_ne jobs u v f hf huv]

/-- Starting an already started job object again (same clock value) changes
nothing. -/
theorem startJob_idem (now : Nat) (j : Job) :
    startJob now (startJob now j) = startJob now j := rfl

/-! ## Lemmas about the in-place sort -/

/-- Stable insertion produces a permutation. -/
theorem insertByPriority_perm (jobs : List Job) (u : Nat) :
    ∀ l : List Nat, List.Perm (insertByPriority jobs u l) (u :: l) := by
  intro l
  induction l with
  | nil => exact List.Perm.refl _
  | cons v vs ih =>
    simp only [insertByPriority]
    by_cases h : jobPriority jobs v ≤ jobPriority jobs u
    · simp only [h, if_pos]
      exact (List.Perm.cons v ih).trans (List.Perm.swap u v vs)
    · simp [h]

/-- The in-place sort of `_process` permutes the queue. -/
theorem sortQueue_perm (jobs : List Job) (q : List Nat) :
    List.Perm (sortQueue jobs q) q := by
  suffices h : ∀ acc : List Nat,
      List.Perm (q.foldl (fun acc u => insertByPriority jobs u acc) acc) (acc ++ q) by
    simpa using h []
  induction q with
  | nil => intro acc; simp
  | cons u us ih =>
    intro acc
    simp only [List.foldl_cons]
    refine (ih (insertByPriority jobs u acc)).trans ?_
    refine (List.Perm.append_right us (insertByPriority_perm jobs u acc)).trans
      ?_
    exact (List.perm_middle).symm

/-- Membership is preserved by the sort. -/
theorem mem_sortQueue (jobs : List Job) (q : List Nat) (u : Nat) :
    u ∈ sortQueue jobs q ↔ u ∈ q :=
  (sortQueue_perm jobs q).mem_iff

/-- The sort preserves the absence of duplicates. -/
theorem sortQueue_nodup (jobs : List Job) (q : List Nat) (h : q.Nodup) :
    (sortQueue jobs q).Nodup :=
  ((sortQueue_perm jobs q).nodup_iff).mpr h

/-! ## Lemmas about the dispatch loop -/

/-- Everything left in the queue by the loop was in the array it scanned. -/
theorem processLoop_queue_sub (mods : List (Nat × ModuleStatus))
    (conc now : Nat) :
    ∀ fuel arr act jobs i u,
      u ∈ (processLoop mods conc now fuel arr act jobs i).1 → u ∈ arr := by
  intro fuel
  induction fuel with
  | zero => intro arr act jobs i u hu; simpa [processLoop] using hu
  | succ n ih =>
    intro arr act jobs i u hu
    simp only [processLoop] at hu
    by_cases h : i < arr.length
    · simp only [h, dif_pos] at hu
      by_cases hcan : canRunJobs mods (jobModuleId jobs (arr.get ⟨i, h⟩))
      · simp only [hcan, if_pos] at hu
        split at hu
        · exact List.erase_subset _ _ hu
        · exact List.erase_subset _ _ (ih _ _ _ _ _ hu)
      · simp only [hcan, if_neg, Bool.false_eq_true, not_false_iff] at hu
        exact ih _ _ _ _ _ hu
    · simpa [h] using hu

/-- The loop only appends to the active array. -/
theorem processLoop_act_prefix (mods : List (Nat × ModuleStatus))
    (conc now : Nat) :
    ∀ fuel arr act jobs i,
      ∃ ds, (processLoop mods conc now fuel arr act jobs i).2.1 =
        act ++ ds := by
  intro fuel
  induction fuel with
  | zero => intro arr act jobs i; exact ⟨[], by simp [processLoop]⟩
  | succ n ih =>
    intro arr act jobs i
    simp only [processLoop]
    by_cases h : i < arr.length
    · simp only [h, dif_pos]
      by_cases hcan : canRunJobs mods (jobModuleId jobs (arr.get ⟨i, h⟩))
      · simp only [hcan, if_pos]
        split
        · exact ⟨[arr.get ⟨i, h⟩], rfl⟩
        · obtain ⟨ds, hds⟩ := ih (arr.erase (arr.get ⟨i, h⟩))
            (act ++ [arr.get ⟨i, h⟩])
            (updateJob jobs (arr.get ⟨i, h⟩) (startJob now)) (i + 1)
          exact ⟨arr.get ⟨i, h⟩ :: ds, by simpa using hds⟩
      · simp only [hcan, if_neg, Bool.false_eq_true, not_false_iff]
        exact ih arr act jobs (i + 1)
    · exact ⟨[], by simp [h]⟩

/-- The loop keeps the active array at or below the concurrency bound when
it starts strictly below it: a job is pushed only after the bound check
passed, and the loop breaks as soon as the bound is reached. -/
theorem processLoop_act_le (mods : List (Nat × ModuleStatus))
    (conc now : Nat) :
    ∀ fuel arr act jobs i, act.length < conc →
      (processLoop mods conc now fuel arr act jobs i).2.1.length ≤ conc := by
  intro fuel
  induction fuel with
  | zero => intro arr act jobs i hlt; simp [processLoop]; omega
  | succ n ih =>
    intro arr act jobs i hlt
    simp only [processLoop]
    by_cases h : i < arr.length
    · simp only [h, dif_pos]
      by_cases hcan : canRunJobs mods (jobModuleId jobs (arr.get ⟨i, h⟩))
      · simp only [hcan, if_pos]
        split
        · simp; omega
        · rename_i hconc
          refine ih _ _ _ _ ?_
          simp only [List.length_append, List.length_cons,
            List.length_nil] at hconc ⊢
          omega
      · simp only [hcan, if_neg, Bool.false_eq_true, not_false_iff]
        exact ih arr act jobs (i + 1) hlt
    · simp only [h, dif_neg, not_false_iff]
      omega

/-- What the loop does to the registry: each job object is either untouched
or, when its uuid was dispatched from the scanned array, moved to ACTIVE
with its start time recorded. -/
theorem processLoop_jobs_cases (mods : List (Nat × ModuleStatus))
    (conc now : Nat) :
    ∀ fuel arr act jobs i u,
      findJob (processLoop mods conc now fuel arr act jobs i).2.2 u =
        findJob jobs u ∨
      (u ∈ arr ∧ ∃ j, findJob jobs u = some j ∧
        findJob (processLoop mods conc now fuel arr act jobs i).2.2 u =
          some (startJob now j)) := by
  intro fuel
  induction fuel with
  | zero => intro arr act jobs i u; left; simp [processLoop]
  | succ n ih =>
    intro arr act jobs i u
    simp only [processLoop]
    by_cases h : i < arr.length
    · simp only [h, dif_pos]
      set u0 := arr.get ⟨i, h⟩ with hu0
      have hu0mem : u0 ∈ arr := arr.get_mem i h
      by_cases hcan : canRunJobs mods (jobModuleId jobs u0)
      · simp only [hcan, if_pos]
        have hureg : ∀ jobs2 : List Job,
            jobs2 = updateJob jobs u0 (startJob now) →
            findJob jobs2 u = findJob jobs u ∨
            (u ∈ arr ∧ ∃ j, findJob jobs u = some j ∧
              findJob jobs2 u = some (startJob now j)) := by
          intro jobs2 hj2
          subst hj2
          by_cases huu : u = u0
          · subst huu
            cases hfind : findJob jobs u0 with
            | none =>
              left
              rw [updateJob_not_found jobs u0 (startJob now) hfind, hfind]
            | some j =>
              right
              exact ⟨hu0mem, j, rfl, findJob_updateJob_self jobs u0
                (startJob now) (fun j => rfl) j hfind⟩
          · left
            exact findJob_updateJob_ne jobs u u0 _ (fun j => rfl) huu
        split
        · exact hureg _ rfl
        · rcases ih (arr.erase u0) (act ++ [u0])
            (updateJob jobs u0 (startJob now)) (i + 1) u with hcase | hcase
          · rw [hcase]
            exact hureg _ rfl
          · obtain ⟨hmem, j2, hj2, hres⟩ := hcase
            have humem : u ∈ arr := List.erase_subset _ _ hmem
            rcases hureg _ rfl with heq | ⟨_, j, hj, hjj⟩
            · right
              refine ⟨humem, j2, ?_, hres⟩
              rw [← heq]
              exact hj2
            · right
              refine ⟨humem, j, hj, ?_⟩
              rw [hjj] at hj2
              cases hj2
              rw [hres, startJob_idem]
      · simp only [hcan, if_neg, Bool.false_eq_true, not_false_iff]
        exact ih arr act jobs (i + 1) u
    · left; simp [h]

/-- The loop never touches the object of a uuid outside the scanned
array. -/
theorem processLoop_jobs_outside (mods : List (Nat × ModuleStatus))
    (conc now : Nat) (fuel : Nat) (arr act : List Nat) (jobs : List Job)
    (i u : Nat) (hu : u ∉ arr) :
    findJob (processLoop mods conc now fuel arr act jobs i).2.2 u =
      findJob jobs u := by
  rcases processLoop_jobs_cases mods conc now fuel arr act jobs i u with
    hcase | ⟨hmem, _⟩
  · exact hcase
  · exact absurd hmem hu

/-- C8's skip behaviour at loop level: a scanned uuid whose module cannot
run jobs is left in the queue, and its job object is untouched. -/
theorem processLoop_skip (mods : List (Nat × ModuleStatus))
    (conc now : Nat) :
    ∀ fuel arr act jobs i u, u ∈ arr →
      canRunJobs mods (jobModuleId jobs u) = false →
      u ∈ (processLoop mods conc now fuel arr act jobs i).1 ∧
        findJob (processLoop mods conc now fuel arr act jobs i).2.2 u =
          findJob jobs u := by
  intro fuel
  induction fuel with
  | zero => intro arr act jobs i u hu _; simpa [processLoop] using hu
  | succ n ih =>
    intro arr act jobs i u hu hcr
    simp only [processLoop]
    by_cases h : i < arr.length
    · simp only [h, dif_pos]
      set u0 := arr.get ⟨i, h⟩ with hu0
      by_cases hcan : canRunJobs mods (jobModuleId jobs u0)
      · have hne : u ≠ u0 := by
          intro he
          rw [he, hcan] at hcr
          exact Bool.true_eq_false.mp hcr
        have hmem2 : u ∈ arr.erase u0 :=
          (List.mem_erase_of_ne hne).mpr hu
        have hreg : findJob (updateJob jobs u0 (startJob now)) u =
            findJob jobs u :=
          findJob_updateJob_ne jobs u u0 _ (fun j => rfl) hne
        have hcr2 : canRunJobs mods
            (jobModuleId (updateJob jobs u0 (startJob now)) u) = false := by
          rw [jobModuleId_updateJob jobs u u0 (startJob now) (fun j => rfl)
            (fun j => rfl)]
          exact hcr
        simp only [hcan, if_pos]
        split
        · exact ⟨hmem2, hreg⟩
        · have := ih (arr.erase u0) (act ++ [u0])
            (updateJob jobs u0 (startJob now)) (i + 1) u hmem2 hcr2
          exact ⟨this.1, this.2.trans hreg⟩
      · simp only [hcan, if_neg, Bool.false_eq_true, not_false_iff]
        exact ih arr act jobs (i + 1) u hu hcr
    · simp only [h, dif_neg, not_false_iff]
      exact ⟨hu, trivial⟩

/-- On a duplicate-free array, the uuids the loop adds to the active array
are exactly taken out of the queue: the final active array extends the
initial one with uuids of the scanned array that are no longer in the final
queue. -/
theorem processLoop_act_new (mods : List (Nat × ModuleStatus))
    (conc now : Nat) :
    ∀ fuel arr act jobs i, arr.Nodup →
      ∃ ds, (processLoop mods conc now fuel arr act jobs i).2.1 =
        act ++ ds ∧
        ∀ u ∈ ds, u ∈ arr ∧
          u ∉ (processLoop mods conc now fuel arr act jobs i).1 := by
  intro fuel
  induction fuel with
  | zero => intro arr act jobs i _; exact ⟨[], by simp [processLoop], by simp⟩
  | succ n ih =>
    intro arr act jobs i hnd
    simp only [processLoop]
    by_cases h : i < arr.length
    · simp only [h, dif_pos]
      set u0 := arr.get ⟨i, h⟩ with hu0
      have hu0mem : u0 ∈ arr := arr.get_mem i h
      by_cases hcan : canRunJobs mods (jobModuleId jobs u0)
      · simp only [hcan, if_pos]
        split
        · refine ⟨[u0], rfl, ?_⟩
          intro u hu
          simp only [List.mem_singleton] at hu
          subst hu
          exact ⟨hu0mem, hnd.not_mem_erase⟩
        · obtain ⟨ds, hds, hprop⟩ := ih (arr.erase u0) (act ++ [u0])
            (updateJob jobs u0 (startJob now)) (i + 1) (hnd.erase u0)
          refine ⟨u0 :: ds, by simpa using hds, ?_⟩
          intro u hu
          rcases List.mem_cons.mp hu with he | hin
          · subst he
            refine ⟨hu0mem, fun hc => ?_⟩
            exact hnd.not_mem_erase (processLoop_queue_sub mods conc now n
              _ _ _ _ u0 hc)
          · exact ⟨List.erase_subset _ _ (hprop u hin).1, (hprop u hin).2⟩
      · simp only [hcan, if_neg, Bool.false_eq_true, not_false_iff]
        exact ih arr act jobs (i + 1) hnd
    · exact ⟨[], by simp [h], by simp⟩

/-- Everything in the final active array was active already or came from
the scanned array. -/
theorem processLoop_act_sub (mods : List (Nat × ModuleStatus))
    (conc now : Nat) :
    ∀ fuel arr act jobs i u,
      u ∈ (processLoop mods conc now fuel arr act jobs i).2.1 →
      u ∈ act ∨ u ∈ arr := by
  intro fuel
  induction fuel with
  | zero => intro arr act jobs i u hu; left; simpa [processLoop] using hu
  | succ n ih =>
    intro arr act jobs i u hu
    simp only [processLoop] at hu
    by_cases h : i < arr.length
    · simp only [h, dif_pos] at hu
      set u0 := arr.get ⟨i, h⟩ with hu0
      have hu0mem : u0 ∈ arr := arr.get_mem i h
      by_cases hcan : canRunJobs mods (jobModuleId jobs u0)
      · simp only [hcan, if_pos] at hu
        have haux : u ∈ act ++ [u0] → u ∈ act ∨ u ∈ arr := by
          intro hin
          rcases List.mem_append.mp hin with hl | hr
          · exact Or.inl hl
          · right
            simp only [List.mem_singleton] at hr
            subst hr
            exact hu0mem
        split at hu
        · exact haux hu
        · rcases ih _ _ _ _ _ hu with hl | hr
          · exact haux hl
          · exact Or.inr (List.erase_subset _ _ hr)
      · simp only [hcan, if_neg, Bool.false_eq_true, not_false_iff] at hu
        exact ih _ _ _ _ _ hu
    · simp only [h, dif_neg, not_false_iff] at hu
      exact Or.inl hu

/-- The loop preserves the absence of duplicates in the queue. -/
theorem processLoop_queue_nodup (mods : List (Nat × ModuleStatus))
    (conc now : Nat) :
    ∀ fuel arr act jobs i, arr.Nodup →
      (processLoop mods conc now fuel arr act jobs i).1.Nodup := by
  intro fuel
  induction fuel with
  | zero => intro arr act jobs i hnd; simpa [processLoop] using hnd
  | succ n ih =>
    intro arr act jobs i hnd
    simp only [processLoop]
    by_cases h : i < arr.length
    · simp only [h, dif_pos]
      by_cases hcan : canRunJobs mods (jobModuleId jobs (arr.get ⟨i, h⟩))
      · simp only [hcan, if_pos]
        split
        · exact hnd.erase _
        · exact ih _ _ _ _ (hnd.erase _)
      · simp only [hcan, if_neg, Bool.false_eq_true, not_false_iff]
        exact ih _ _ _ _ hnd
    · simpa [h] using hnd

/-- On a duplicate-free array, the job object of a uuid the loop leaves in
the queue is untouched. -/
theorem processLoop_queue_reg (mods : List (Nat × ModuleStatus))
    (conc now : Nat) :
    ∀ fuel arr act jobs i u, arr.Nodup →
      u ∈ (processLoop mods conc now fuel arr act jobs i).1 →
      findJob (processLoop mods conc now fuel arr act jobs i).2.2 u =
        findJob jobs u := by
  intro fuel
  induction fuel with
  | zero => intro arr act jobs i u _ _; simp [processLoop]
  | succ n ih =>
    intro arr act jobs i u hnd hu
    simp only [processLoop] at hu ⊢
    by_cases h : i < arr.length
    · simp only [h, dif_pos] at hu ⊢
      set u0 := arr.get ⟨i, h⟩ with hu0
      by_cases hcan : canRunJobs mods (jobModuleId jobs u0)
      · simp only [hcan, if_pos] at hu ⊢
        have hne : ∀ hin : u ∈ arr.erase u0, u ≠ u0 := by
          intro hin he
          subst he
          exact hnd.not_mem_erase hin
        split at hu
        · rename_i hconc
          simp only [hconc, if_pos]
          exact findJob_updateJob_ne jobs u u0 _ (fun j => rfl) (hne hu)
        · rename_i hconc
          simp only [hconc, if_neg, not_false_iff]
          have humem : u ∈ arr.erase u0 :=
            processLoop_queue_sub mods conc now n _ _ _ _ u hu
          refine (ih _ _ _ _ u (hnd.erase u0) hu).trans ?_
          exact findJob_updateJob_ne jobs u u0 _ (fun j => rfl) (hne humem)
      · simp only [hcan, if_neg, Bool.false_eq_true, not_false_iff] at hu ⊢
        exact ih _ _ _ _ u hnd hu
    · simp [h]

/-- C8's dispatch behaviour at loop level: when the first element of the
scanned array is eligible (and not duplicated), the loop moves it into the
active array and starts it. -/
theorem processLoop_head (mods : List (Nat × ModuleStatus))
    (conc now fuel : Nat) (u : Nat) (rest act : List Nat) (jobs : List Job)
    (hcan : canRunJobs mods (jobModuleId jobs u) = true)
    (hnotin : u ∉ rest) :
    u ∈ (processLoop mods conc now (fuel + 1) (u :: rest) act jobs 0).2.1 ∧
      ∀ j, findJob jobs u = some j →
        findJob
          (processLoop mods conc now (fuel + 1) (u :: rest) act jobs 0).2.2
          u = some (startJob now j) := by
  have hlen : 0 < (u :: rest).length := by simp
  have hget : (u :: rest).get ⟨0, hlen⟩ = u := rfl
  have herase : (u :: rest).erase u = rest := by
    simp [List.erase_cons_head]
  simp only [processLoop, hlen, dif_pos, hget, hcan, if_pos, herase]
  split
  · refine ⟨by simp, fun j hj => ?_⟩
    exact findJob_updateJob_self jobs u (startJob now) (fun j => rfl) j hj
  · constructor
    · obtain ⟨ds, hds⟩ := processLoop_act_prefix mods conc now fuel rest
        (act ++ [u]) (updateJob jobs u (startJob now)) 1
      rw [hds]
      simp
    · intro j hj
      rw [processLoop_jobs_outside mods conc now fuel rest _ _ 1 u hnotin]
      exact findJob_updateJob_self jobs u (startJob now) (fun j => rfl) j hj

/-! ## Lemmas about the dispatch pass -/

/-- The dispatch pass only touches `_queue`, `_active` and the job
objects. -/
theorem processPass_fields (s : QueueState) :
    (processPass s).concurrency = s.concurrency ∧
      (processPass s).isPaused = s.isPaused ∧
      (processPass s).callbacks = s.callbacks ∧
      (processPass s).modules = s.modules ∧
      (processPass s).nextUuid = s.nextUuid ∧
      (processPass s).now = s.now := by
  unfold processPass
  split
  · exact ⟨rfl, rfl, rfl, rfl, rfl, rfl⟩
  · exact ⟨rfl, rfl, rfl, rfl, rfl, rfl⟩

/-- C1 at pass level: one dispatch pass keeps the active array within the
concurrency bound. -/
theorem processPass_act_le (s : QueueState)
    (h : s.activeJobs.length ≤ s.concurrency) :
    (processPass s).activeJobs.length ≤ (processPass s).concurrency := by
  rw [(processPass_fields s).1]
  unfold processPass
  split
  · exact h
  · rename_i hguard
    simp only [Bool.or_eq_true, decide_eq_true_eq, not_or] at hguard
    exact processLoop_act_le s.modules s.concurrency s.now _ _ _ _ _
      (by omega)

/-- The pass never adds to the queue. -/
theorem processPass_queue_sub (s : QueueState) (u : Nat)
    (hu : u ∈ (processPass s).queue) : u ∈ s.queue := by
  revert hu
  unfold processPass
  split
  · exact fun hu => hu
  · intro hu
    exact (mem_sortQueue s.jobs s.queue u).mp
      (processLoop_queue_sub _ _ _ _ _ _ _ _ u hu)

/-- A uuid active after the pass was active before or was queued. -/
theorem processPass_act_sources (s : QueueState) (u : Nat)
    (hu : u ∈ (processPass s).activeJobs) :
    u ∈ s.activeJobs ∨ u ∈ s.queue := by
  revert hu
  unfold processPass
  split
  · exact fun hu => Or.inl hu
  · intro hu
    rcases processLoop_act_sub _ _ _ _ _ _ _ _ u hu with hl | hr
    · exact Or.inl hl
    · exact Or.inr ((mem_sortQueue s.jobs s.queue u).mp hr)

/-- What the pass does to the registry: each job object is either untouched
or dispatched out of the queue and started. -/
theorem processPass_jobs_cases (s : QueueState) (u : Nat) :
    findJob (processPass s).jobs u = findJob s.jobs u ∨
      (u ∈ s.queue ∧ ∃ j, findJob s.jobs u = some j ∧
        findJob (processPass s).jobs u = some (startJob s.now j)) := by
  unfold processPass
  split
  · exact Or.inl rfl
  · rcases processLoop_jobs_cases s.modules s.concurrency s.now
      (sortQueue s.jobs s.queue).length (sortQueue s.jobs s.queue)
      s.activeJobs s.jobs 0 u with hcase | ⟨hmem, j, hj, hres⟩
    · exact Or.inl hcase
    · exact Or.inr ⟨(mem_sortQueue s.jobs s.queue u).mp hmem, j, hj, hres⟩

/-- The pass preserves the absence of duplicates in the queue. -/
theorem processPass_queue_nodup (s : QueueState) (h : s.queue.Nodup) :
    (processPass s).queue.Nodup := by
  unfold processPass
  split
  · exact h
  · exact processLoop_queue_nodup _ _ _ _ _ _ _ _
      (sortQueue_nodup s.jobs s.queue h)

/-- On a duplicate-free queue, the pass leaves the job object of every uuid
still queued untouched. -/
theorem processPass_queue_reg (s : QueueState) (hnd : s.queue.Nodup)
    (u : Nat) (hu : u ∈ (processPass s).queue) :
    findJob (processPass s).jobs u = findJob s.jobs u := by
  revert hu
  unfold processPass
  split
  · exact fun _ => rfl
  · intro hu
    exact processLoop_queue_reg _ _ _ _ _ _ _ _ u
      (sortQueue_nodup s.jobs s.queue hnd) hu

/-- On a duplicate-free queue, the active array after the pass extends the
one before with uuids taken from the queue, and none of the new active
uuids is still queued. -/
theorem processPass_act_new (s : QueueState) (hnd : s.queue.Nodup) :
    ∃ ds, (processPass s).activeJobs = s.activeJobs ++ ds ∧
      ∀ u ∈ ds, u ∈ s.queue ∧ u ∉ (processPass s).queue := by
  unfold processPass
  split
  · exact ⟨[], by simp, by simp⟩
  · obtain ⟨ds, hds, hprop⟩ := processLoop_act_new s.modules s.concurrency
      s.now (sortQueue s.jobs s.queue).length (sortQueue s.jobs s.queue)
      s.activeJobs s.jobs 0 (sortQueue_nodup s.jobs s.queue hnd)
    refine ⟨ds, hds, fun u hu => ?_⟩
    exact ⟨(mem_sortQueue s.jobs s.queue u).mp (hprop u hu).1,
      (hprop u hu).2⟩

/-! ## The state invariant -/

/-- Fields of the freshly constructed job object. -/
theorem mkJob_fields (uuid now moduleId : Nat) (options : Option JobOptions) :
    (mkJob uuid now moduleId options).uuid = uuid ∧
      (mkJob uuid now moduleId options).status = JobStatus.queued ∧
      (mkJob uuid now moduleId options).startedAt = none ∧
      (mkJob uuid now moduleId options).moduleId = moduleId ∧
      (mkJob uuid now moduleId options).createdAt = now := by
  cases options with
  | none => exact ⟨rfl, rfl, rfl, rfl, rfl⟩
  | some o =>
    refine ⟨?_, ?_, ?_, ?_, ?_⟩ <;>
        (simp only [mkJob]; cases o.priority <;> repeat' split) <;> rfl

/-- A uuid-preserving in-place update does not change the uuids of the
registry. -/
theorem updateJob_uuids (jobs : List Job) (v : Nat) (f : Job → Job)
    (hf : ∀ j, (f j).uuid = j.uuid) :
    (updateJob jobs v f).map (fun j => j.uuid) =
      jobs.map (fun j => j.uuid) := by
  unfold updateJob
  rw [List.map_map]
  congr 1
  funext j
  by_cases h : j.uuid = v
  · simp [h, hf j]
  · simp [h]

/-- The dispatch loop does not change the uuids of the registry. -/
theorem processLoop_jobs_uuids (mods : List (Nat × ModuleStatus))
    (conc now : Nat) :
    ∀ fuel arr act jobs i,
      (processLoop mods conc now fuel arr act jobs i).2.2.map
          (fun j => j.uuid) =
        jobs.map (fun j => j.uuid) := by
  intro fuel
  induction fuel with
  | zero => intro arr act jobs i; simp [processLoop]
  | succ n ih =>
    intro arr act jobs i
    simp only [processLoop]
    by_cases h : i < arr.length
    · simp only [h, dif_pos]
      by_cases hcan : canRunJobs mods (jobModuleId jobs (arr.get ⟨i, h⟩))
      · simp only [hcan, if_pos]
        split
        · exact updateJob_uuids jobs _ _ (fun j => rfl)
        · exact (ih _ _ _ _).trans (updateJob_uuids jobs _ _ (fun j => rfl))
      · simp only [hcan, if_neg, Bool.false_eq_true, not_false_iff]
        exact ih _ _ _ _
    · simp [h]

/-- A uuid above every registered uuid is not registered. -/
theorem findJob_none_of_lt (jobs : List Job) (v : Nat)
    (h : ∀ j ∈ jobs, j.uuid < v) : findJob jobs v = none := by
  rw [findJob, List.find?_eq_none]
  intro j hj hbeq
  have := h j hj
  have : j.uuid = v := by simpa using hbeq
  omega

/-- The invariant the scheduler maintains at every event boundary. -/
structure Inv (s : QueueState) : Prop where
  conc50 : s.concurrency = 50
  actLe : s.activeJobs.length ≤ s.concurrency
  qNodup : s.queue.Nodup
  qLt : ∀ u ∈ s.queue, u < s.nextUuid
  aLt : ∀ u ∈ s.activeJobs, u < s.nextUuid
  jLt : ∀ j ∈ s.jobs, j.uuid < s.nextUuid
  qStatus : ∀ u ∈ s.queue, ∀ j, findJob s.jobs u = some j →
    j.status = JobStatus.queued ∧ j.startedAt = none
  qa : ∀ u ∈ s.queue, u ∉ s.activeJobs

/-- The freshly constructed queue satisfies the invariant. -/
theorem inv_init (mods : List (Nat × ModuleStatus)) :
    Inv (initState mods) := by
  refine ⟨rfl, by simp [initState], by simp [initState], ?_, ?_, ?_, ?_, ?_⟩
    <;> simp [initState]

/-- One dispatch pass preserves the invariant. -/
theorem inv_pass (s : QueueState) (hs : Inv s) : Inv (processPass s) := by
  obtain ⟨hf1, hf2, hf3, hf4, hf5, hf6⟩ := processPass_fields s
  refine ⟨hf1.trans hs.conc50, processPass_act_le s (hs.actLe), ?_, ?_, ?_,
    ?_, ?_, ?_⟩
  · exact processPass_queue_nodup s hs.qNodup
  · intro u hu
    rw [hf5]
    exact hs.qLt u (processPass_queue_sub s u hu)
  · intro u hu
    rw [hf5]
    rcases processPass_act_sources s u hu with hl | hr
    · exact hs.aLt u hl
    · exact hs.qLt u hr
  · intro j hj
    rw [hf5]
    have huuid : j.uuid ∈ (processPass s).jobs.map (fun j => j.uuid) :=
      List.mem_map_of_mem _ hj
    have : (processPass s).jobs.map (fun j => j.uuid) =
        s.jobs.map (fun j => j.uuid) := by
      revert huuid
      unfold processPass
      split
      · intro _; rfl
      · intro _
        exact processLoop_jobs_uuids _ _ _ _ _ _ _ _
    rw [this] at huuid
    obtain ⟨j0, hj0, he⟩ := List.mem_map.mp huuid
    rw [← he]
    exact hs.jLt j0 hj0
  · intro u hu j hj
    rw [processPass_queue_reg s hs.qNodup u hu] at hj
    exact hs.qStatus u (processPass_queue_sub s u hu) j hj
  · intro u hu
    obtain ⟨ds, hds, hprop⟩ := processPass_act_new s hs.qNodup
    rw [hds]
    intro hmem
    rcases List.mem_append.mp hmem with hl | hr
    · exact hs.qa u (processPass_queue_sub s u hu) hl
    · exact (hprop u hr).2 hu

/-- A uuid bound transfers along registries with the same uuids. -/
theorem uuids_lt_transfer (jobs jobs2 : List Job) (v : Nat)
    (h : jobs2.map (fun j => j.uuid) = jobs.map (fun j => j.uuid))
    (hlt : ∀ j ∈ jobs, j.uuid < v) : ∀ j ∈ jobs2, j.uuid < v := by
  intro j hj
  have huuid : j.uuid ∈ jobs2.map (fun j => j.uuid) :=
    List.mem_map_of_mem _ hj
  rw [h] at huuid
  obtain ⟨j0, hj0, he⟩ := List.mem_map.mp huuid
  rw [← he]
  exact hlt j0 hj0

/-- Every scheduler event preserves the invariant. -/
theorem inv_step (s : QueueState) (op : QOp) (hs : Inv s) :
    Inv (step s op) := by
  cases op with
  | queueJob m opts =>
    simp only [step]
    split
    · apply inv_pass
      obtain ⟨hju, hjs, hjst, hjm, hjc⟩ :=
        mkJob_fields s.nextUuid s.now m opts
      refine ⟨hs.conc50, hs.actLe, ?_, ?_, ?_, ?_, ?_, ?_⟩ <;> dsimp only
      · rw [List.nodup_append]
        refine ⟨hs.qNodup, List.nodup_singleton _, ?_⟩
        intro u hu hmem
        simp only [List.mem_singleton] at hmem
        have := hs.qLt u hu
        rw [hmem, hju] at this
        omega
      · intro u hu
        rcases List.mem_append.mp hu with hl | hr
        · have := hs.qLt u hl
          omega
        · simp only [List.mem_singleton] at hr
          rw [hr, hju]
          omega
      · intro u hu
        have := hs.aLt u hu
        omega
      · intro j hj
        rcases List.mem_append.mp hj with hl | hr
        · have := hs.jLt j hl
          omega
        · simp only [List.mem_singleton] at hr
          rw [hr, hju]
          omega
      · intro u hu j hj
        rw [findJob, List.find?_append] at hj
        rcases List.mem_append.mp hu with hl | hr
        · cases hfind : List.find? (fun j => j.uuid == u) s.jobs with
          | some j0 =>
            rw [hfind] at hj
            have hj2 : j0 = j := by simpa using hj
            rw [← hj2]
            exact hs.qStatus u hl j0 hfind
          | none =>
            rw [hfind] at hj
            simp only [Option.none_or] at hj
            have hj2 := List.find?_some hj
            have : (mkJob s.nextUuid s.now m opts).uuid = u := by
              have := List.mem_singleton.mp (List.mem_of_find?_eq_some hj)
              rw [this] at hj2
              simpa using hj2
            rw [hju] at this
            have := hs.qLt u hl
            omega
        · simp only [List.mem_singleton] at hr
          have hnone : List.find? (fun j => j.uuid == u) s.jobs = none := by
            have := findJob_none_of_lt s.jobs s.nextUuid hs.jLt
            rw [findJob] at this
            rw [hr, hju]
            exact this
          rw [hnone] at hj
          simp only [Option.none_or] at hj
          have hmem := List.mem_singleton.mp (List.mem_of_find?_eq_some hj)
          rw [hmem]
          exact ⟨hjs, hjst⟩
      · intro u hu hmem
        rcases List.mem_append.mp hu with hl | hr
        · exact hs.qa u hl hmem
        · simp only [List.mem_singleton] at hr
          have := hs.aLt u hmem
          rw [hr, hju] at this
          omega
    · exact ⟨hs.conc50, hs.actLe, hs.qNodup, hs.qLt, hs.aLt, hs.jLt,
        hs.qStatus, hs.qa⟩
  | complete u =>
    simp only [step]
    split
    · rename_i hcont
      have humem : u ∈ s.activeJobs := by simpa using hcont
      apply inv_pass
      refine ⟨hs.conc50, ?_, hs.qNodup, hs.qLt, ?_, ?_, ?_, ?_⟩
      · exact le_trans (List.Sublist.length_le (List.erase_sublist u
          s.activeJobs)) hs.actLe
      · intro v hv
        exact hs.aLt v (List.erase_subset _ _ hv)
      · exact uuids_lt_transfer s.jobs _ s.nextUuid
          (updateJob_uuids s.jobs u (finishJob s.now) (fun j => rfl)) hs.jLt
      · intro v hv j hj
        have hvu : v ≠ u := by
          intro he
          exact hs.qa v hv (he ▸ humem)
        rw [findJob_updateJob_ne s.jobs v u (finishJob s.now) (fun j => rfl)
          hvu] at hj
        exact hs.qStatus v hv j hj
      · intro v hv hmem
        exact hs.qa v hv (List.erase_subset _ _ hmem)
    · exact ⟨hs.conc50, hs.actLe, hs.qNodup, hs.qLt, hs.aLt, hs.jLt,
        hs.qStatus, hs.qa⟩
  | pause =>
    exact ⟨hs.conc50, hs.actLe, hs.qNodup, hs.qLt, hs.aLt, hs.jLt,
      hs.qStatus, hs.qa⟩
  | resume =>
    apply inv_pass
    exact ⟨hs.conc50, hs.actLe, hs.qNodup, hs.qLt, hs.aLt, hs.jLt,
      hs.qStatus, hs.qa⟩
  | setModuleStatus m st =>
    exact ⟨hs.conc50, hs.actLe, hs.qNodup, hs.qLt, hs.aLt, hs.jLt,
      hs.qStatus, hs.qa⟩

/-- The invariant holds in every reachable state. -/
theorem inv_run (mods : List (Nat × ModuleStatus)) (ops : List QOp) :
    Inv (runOps mods ops) := by
  suffices h : ∀ (l : List QOp) (s : QueueState), Inv s →
      Inv (l.foldl step s) from h ops _ (inv_init mods)
  intro l
  induction l with
  | nil => exact fun s hs => hs
  | cons op rest ih =>
    intro s hs
    exact ih _ (inv_step s op hs)

/-! ## Forward-only lifecycle -/

/-- COMPLETED is the top of the lifecycle order. -/
theorem statusRank_le_two (st : JobStatus) : statusRank st ≤ 2 := by
  cases st <;> simp [statusRank]

/-- A dispatch pass never moves a job's status backwards, provided every
queued uuid maps to a QUEUED job object. -/
theorem rank_mono_pass (s : QueueState)
    (hq : ∀ u ∈ s.queue, ∀ j, findJob s.jobs u = some j →
      j.status = JobStatus.queued) (u : Nat) :
    statusRankOf s u ≤ statusRankOf (processPass s) u := by
  rcases processPass_jobs_cases s u with heq | ⟨hmem, j, hj, hres⟩
  · rw [statusRankOf, statusRankOf, jobStatus, jobStatus, heq]
  · have h0 : statusRankOf s u = 0 := by
      rw [statusRankOf, jobStatus, hj]
      simp [hq u hmem j hj, statusRank]
    rw [h0]
    exact Nat.zero_le _

/-- No scheduler event moves a job's status backwards in a state satisfying
the invariant. -/
theorem rank_mono_step (s : QueueState) (op : QOp) (hs : Inv s) (u : Nat) :
    statusRankOf s u ≤ statusRankOf (step s op) u := by
  cases op with
  | queueJob m opts =>
    simp only [step]
    split
    · obtain ⟨hju, hjs, hjst, hjm, hjc⟩ :=
        mkJob_fields s.nextUuid s.now m opts
      refine le_trans ?_ (rank_mono_pass _ ?_ u)
      · dsimp only
        cases hfind : findJob s.jobs u with
        | none =>
          rw [statusRankOf, jobStatus, hfind]
          exact Nat.zero_le _
        | some j =>
          have : findJob (s.jobs ++ [mkJob s.nextUuid s.now m opts]) u =
              some j := by
            rw [findJob, List.find?_append]
            rw [findJob] at hfind
            rw [hfind]
            rfl
          rw [statusRankOf, statusRankOf, jobStatus, jobStatus, hfind, this]
      · dsimp only
        intro v hv j hj
        rw [findJob, List.find?_append] at hj
        rcases List.mem_append.mp hv with hl | hr
        · cases hfind : List.find? (fun j => j.uuid == v) s.jobs with
          | some j0 =>
            rw [hfind] at hj
            have hj2 : j0 = j := by simpa using hj
            rw [← hj2]
            exact (hs.qStatus v hl j0 hfind).1
          | none =>
            rw [hfind] at hj
            simp only [Option.none_or] at hj
            have hj2 := List.find?_some hj
            have hmem := List.mem_singleton.mp (List.mem_of_find?_eq_some hj)
            rw [hmem]
            exact hjs
        · simp only [List.mem_singleton] at hr
          have hnone : List.find? (fun j => j.uuid == v) s.jobs = none := by
            have := findJob_none_of_lt s.jobs s.nextUuid hs.jLt
            rw [findJob] at this
            rw [hr, hju]
            exact this
          rw [hnone] at hj
          simp only [Option.none_or] at hj
          have hmem := List.mem_singleton.mp (List.mem_of_find?_eq_some hj)
          rw [hmem]
          exact hjs
    · exact le_refl _
  | complete u0 =>
    simp only [step]
    split
    · rename_i hcont
      have humem : u0 ∈ s.activeJobs := by simpa using hcont
      refine le_trans ?_ (rank_mono_pass _ ?_ u)
      · dsimp only
        by_cases huu : u = u0
        · subst huu
          cases hfind : findJob s.jobs u with
          | none =>
            rw [statusRankOf, jobStatus, hfind]
            exact Nat.zero_le _
          | some j =>
            rw [statusRankOf, statusRankOf, jobStatus, jobStatus, hfind,
              findJob_updateJob_self s.jobs u (finishJob s.now)
                (fun j => rfl) j hfind]
            show statusRank j.status ≤ statusRank (finishJob s.now j).status
            exact statusRank_le_two _
        · rw [statusRankOf, statusRankOf, jobStatus, jobStatus,
            findJob_updateJob_ne s.jobs u u0 (finishJob s.now)
              (fun j => rfl) huu]
      · dsimp only
        intro v hv j hj
        have hvu : v ≠ u0 := by
          intro he
          exact hs.qa v hv (he ▸ humem)
        rw [findJob_updateJob_ne s.jobs v u0 (finishJob s.now)
          (fun j => rfl) hvu] at hj
        exact (hs.qStatus v hv j hj).1
    · exact le_refl _
  | pause => exact le_refl _
  | resume =>
    simp only [step]
    exact rank_mono_pass
      { s with isPaused := false, now := s.now + 1 }
      (fun v hv j hj => (hs.qStatus v hv j hj).1) u
  | setModuleStatus m st => exact le_refl _

/-- Appending one event to a run is one step on the final state. -/
theorem runOps_snoc (mods : List (Nat × ModuleStatus)) (ops : List QOp)
    (op : QOp) :
    runOps mods (ops ++ [op]) = step (runOps mods ops) op := by
  rw [runOps, runOps, List.foldl_append]
  rfl

/-! ## Registry persistence -/

/-- The identity fields a job object keeps through its life. -/
def sameIdentity (j j2 : Job) : Prop :=
  j2.uuid = j.uuid ∧ j2.priority = j.priority ∧ j2.moduleId = j.moduleId ∧
    j2.createdAt = j.createdAt

/-- A dispatch pass never removes a job object from the registry, and keeps
its identity fields. -/
theorem persist_pass (s : QueueState) (u : Nat) (j : Job)
    (h : findJob s.jobs u = some j) :
    ∃ j2, findJob (processPass s).jobs u = some j2 ∧ sameIdentity j j2 := by
  rcases processPass_jobs_cases s u with heq | ⟨hmem, j0, hj0, hres⟩
  · exact ⟨j, heq.trans h, rfl, rfl, rfl, rfl⟩
  · rw [h] at hj0
    have hjj : j = j0 := by simpa using hj0
    subst hjj
    exact ⟨startJob s.now j, hres, rfl, rfl, rfl, rfl⟩

/-- No scheduler event removes a job object from the registry or changes
its identity fields. -/
theorem persist_step (s : QueueState) (op : QOp) (u : Nat) (j : Job)
    (h : findJob s.jobs u = some j) :
    ∃ j2, findJob (step s op).jobs u = some j2 ∧ sameIdentity j j2 := by
  cases op with
  | queueJob m opts =>
    simp only [step]
    split
    · have h1 : findJob ((QueueState.mk s.concurrency s.isPaused
          (s.jobs ++ [mkJob s.nextUuid s.now m opts])
          (s.queue ++ [(mkJob s.nextUuid s.now m opts).uuid])
          s.activeJobs
          (s.callbacks ++ [(mkJob s.nextUuid s.now m opts).uuid])
          s.modules (s.nextUuid + 1) (s.now + 1)).jobs) u = some j := by
        dsimp only
        rw [findJob, List.find?_append]
        rw [findJob] at h
        rw [h]
        rfl
      exact persist_pass _ u j h1
    · exact ⟨j, h, rfl, rfl, rfl, rfl⟩
  | complete u0 =>
    simp only [step]
    split
    · by_cases huu : u = u0
      · subst huu
        have h1 : findJob (updateJob s.jobs u (finishJob s.now)) u =
            some (finishJob s.now j) :=
          findJob_updateJob_self s.jobs u (finishJob s.now) (fun j => rfl)
            j h
        obtain ⟨j2, hj2, hid⟩ := persist_pass
          { s with
            jobs := updateJob s.jobs u (finishJob s.now),
            callbacks := s.callbacks.erase u,
            activeJobs := s.activeJobs.erase u, now := s.now + 1 }
          u (finishJob s.now j) h1
        exact ⟨j2, hj2, hid.1, hid.2.1, hid.2.2.1, hid.2.2.2⟩
      · have h1 : findJob (updateJob s.jobs u0 (finishJob s.now)) u =
            some j := by
          rw [findJob_updateJob_ne s.jobs u u0 (finishJob s.now)
            (fun j => rfl) huu]
          exact h
        exact persist_pass
          { s with
            jobs := updateJob s.jobs u0 (finishJob s.now),
            callbacks := s.callbacks.erase u0,
            activeJobs := s.activeJobs.erase u0, now := s.now + 1 }
          u j h1
    · exact ⟨j, h, rfl, rfl, rfl, rfl⟩
  | pause => exact ⟨j, h, rfl, rfl, rfl, rfl⟩
  | resume =>
    simp only [step]
    exact persist_pass { s with isPaused := false, now := s.now + 1 } u j h
  | setModuleStatus m st => exact ⟨j, h, rfl, rfl, rfl, rfl⟩

/-- The queue gains only the uuid of the newly constructed job. -/
theorem queue_no_new (s : QueueState) (op : QOp) (u : Nat)
    (hu : u ∈ (step s op).queue) : u ∈ s.queue ∨ u = s.nextUuid := by
  cases op with
  | queueJob m opts =>
    revert hu
    simp only [step]
    split
    · intro hu
      have := processPass_queue_sub _ u hu
      dsimp only at this
      rcases List.mem_append.mp this with hl | hr
      · exact Or.inl hl
      · right
        have := List.mem_singleton.mp hr
        rw [this, (mkJob_fields s.nextUuid s.now m opts).1]
    · exact fun hu => Or.inl hu
  | complete u0 =>
    revert hu
    simp only [step]
    split
    · intro hu
      exact Or.inl (processPass_queue_sub
        { s with
          jobs := updateJob s.jobs u0 (finishJob s.now),
          callbacks := s.callbacks.erase u0,
          activeJobs := s.activeJobs.erase u0, now := s.now + 1 } u hu)
    · exact fun hu => Or.inl hu
  | pause => exact Or.inl hu
  | resume =>
    revert hu
    simp only [step]
    intro hu
    exact Or.inl (processPass_queue_sub
      { s with isPaused := false, now := s.now + 1 } u hu)
  | setModuleStatus m st => exact Or.inl hu

/-! ## The claims -/

/-- C1: at every instant the number of units in the scheduler's active set
is at most the concurrency bound, whose default value is 50: for every
sequence of submissions, completions, pause/resume events and module status
changes, the state reached from the freshly constructed queue satisfies
`|active| ≤ concurrency`, and the concurrency of that state is the default
50. -/
theorem claim_c1_concurrency_bound (mods : List (Nat × ModuleStatus))
    (ops : List QOp) :
    (runOps mods ops).activeJobs.length ≤ (runOps mods ops).concurrency ∧
      (runOps mods ops).concurrency = 50 :=
  ⟨(inv_run mods ops).actLe, (inv_run mods ops).conc50⟩

/-- C2, evaluated at the failing input: two eligible equal-priority units
are queued while paused and a single dispatch pass runs (resume).  The
claim says the pass repeats until the concurrency bound is reached or no
eligible unit remains; the code instead leaves unit 1 queued while the pass
ends below the bound, because the loop iterates over the same array it
splices dispatched jobs from, so each dispatch shifts the next unit past
the loop index. -/
theorem claim_c2_pass_leaves_eligible_unit :
    (runOps mods0 opsTwoJobs).isPaused = false ∧
      (runOps mods0 opsTwoJobs).activeJobs = [0] ∧
      (runOps mods0 opsTwoJobs).activeJobs.length <
        (runOps mods0 opsTwoJobs).concurrency ∧
      (runOps mods0 opsTwoJobs).queue = [1] ∧
      canRunJobs (runOps mods0 opsTwoJobs).modules
        (jobModuleId (runOps mods0 opsTwoJobs).jobs 1) = true ∧
      jobStatus (runOps mods0 opsTwoJobs).jobs 1 =
        some JobStatus.queued := by
  decide

/-- C3, evaluated at the failing input: units 0, 1 (priority 1) and 2
(priority 5) are queued while paused and a single dispatch pass runs.  The
claim says a unit with a lower priority value is dispatched no later than
any unit with a higher priority value; the code instead dispatches unit 2
(priority 5) in that pass while unit 1 (priority 1, eligible, submitted
earlier) stays queued, because of the same splice-under-the-index slip. -/
theorem claim_c3_priority_inversion :
    (runOps mods0 opsThreeJobs).queue = [1] ∧
      (runOps mods0 opsThreeJobs).activeJobs = [0, 2] ∧
      jobPriority (runOps mods0 opsThreeJobs).jobs 1 = 1 ∧
      jobPriority (runOps mods0 opsThreeJobs).jobs 2 = 5 ∧
      (findJob (runOps mods0 opsThreeJobs).jobs 1).map
        (fun j => j.createdAt) = some 1 ∧
      (findJob (runOps mods0 opsThreeJobs).jobs 2).map
        (fun j => j.createdAt) = some 2 ∧
      jobStatus (runOps mods0 opsThreeJobs).jobs 1 =
        some JobStatus.queued ∧
      jobStatus (runOps mods0 opsThreeJobs).jobs 2 =
        some JobStatus.active ∧
      canRunJobs (runOps mods0 opsThreeJobs).modules
        (jobModuleId (runOps mods0 opsThreeJobs).jobs 1) = true := by
  decide

/-- C4, evaluated at the failing input: three running modules where `a`
depends on `b` and `b` depends on `c`, enumerated in the order c, b, a.
The claim says the computed shutdown order stops a module only after every
module that depends on it; the computed order is `[c, a, b]`, which stops
`c` before its dependent `b`, so the order-building heuristic of
`ModuleManager.shutdown` violates reverse topological order on dependency
chains. -/
theorem claim_c4_shutdown_order_violation :
    computeShutdownOrder chainReg = ["c", "a", "b"] ∧
      shutdownRespectsDependents chainReg
        (computeShutdownOrder chainReg) = false := by
  constructor
  · decide
  · decide

/-- C5, evaluated at the failing input: two modules depending on each
other, both uninitialized.  The claim says startup fails fast with a fatal
configuration error before any startup routine runs; the code has no cycle
detection at all, so `_startModule` recurses forever on the cycle — for
every recursion budget the embedded recursion exhausts it (in the source
this is an eventual stack overflow, not a configuration error), whichever
module the recursion starts from and whether or not startup routines would
succeed. -/
theorem claim_c5_cycle_unbounded_recursion (succeed : String → Bool)
    (fuel : Nat) :
    startModule succeed fuel cycReg "a" = Except.error StartErr.outOfFuel ∧
      startModule succeed fuel cycReg "b" =
        Except.error StartErr.outOfFuel := by
  induction fuel with
  | zero => exact ⟨rfl, rfl⟩
  | succ n ih =>
    obtain ⟨iha, ihb⟩ := ih
    simp only [cycReg] at iha ihb
    refine ⟨?_, ?_⟩
    · simp [startModule, startDeps, lookupMod, cycReg, List.find?, iha, ihb]
    · simp [startModule, startDeps, lookupMod, cycReg, List.find?, iha, ihb]

/-- C6: the status of every unit moves only forward through
QUEUED → ACTIVE → COMPLETED and never re-enters an earlier state: along
every event of every run the lifecycle rank of every uuid is monotone; and
calling `execute` on a unit that has already started throws
`Job has already been executed.` without running the phases (no effects)
and without touching the job object, so no unit is executed twice. -/
theorem claim_c6_forward_only_lifecycle :
    (∀ (mods : List (Nat × ModuleStatus)) (ops : List QOp) (op : QOp)
      (u : Nat),
      statusRankOf (runOps mods ops) u ≤
        statusRankOf (runOps mods (ops ++ [op])) u) ∧
    (∀ (canRun : Bool) (ph : PhaseSpec) (now : Nat) (j : Job),
      j.startedAt.isSome = true →
      executeJob canRun ph now j =
        (ExecResult.earlyThrow "Job has already been executed.", j, [])) := by
  constructor
  · intro mods ops op u
    rw [runOps_snoc]
    exact rank_mono_step (runOps mods ops) op (inv_run mods ops) u
  · intro canRun ph now j h
    simp [executeJob, h]

/-- Witness for C6, at a concrete run and a concrete already-started
job. -/
theorem claim_c6_witness :
    statusRankOf (runOps mods0 opsTwoJobs) 0 ≤
      statusRankOf (runOps mods0 (opsTwoJobs ++ [QOp.complete 0])) 0 ∧
    (startJob 3 freshJob).startedAt.isSome = true ∧
    executeJob true phOk 5 (startJob 3 freshJob) =
      (ExecResult.earlyThrow "Job has already been executed.",
        startJob 3 freshJob, []) :=
  ⟨claim_c6_forward_only_lifecycle.1 mods0 opsTwoJobs (QOp.complete 0) 0,
    by decide,
    claim_c6_forward_only_lifecycle.2 true phOk 5 (startJob 3 freshJob)
      (by decide)⟩

/-- C7 counterexample: the claim says the unit's execution entry point
never throws an exception out to its caller; but on a job whose execute
phase throws, `Job.execute` re-throws the caught error at the end of its
`catch` block (`Job.ts` line 253), so the promise returned to the caller
rejects with that error. -/
theorem claim_c7_counterexample :
    (executeJob true phFail 5 freshJob).1 =
      ExecResult.failureThrown "boom" := by
  decide

/-- C7 as amended: for every unit and payload, any exception raised in the
validate, authorize or execute phases is caught, reported (error log,
failure statistic, total statistic), leaves the unit COMPLETED, and is
re-thrown by `execute`, so the promise rejects; the dispatch pass's
`.catch(callback.reject)` then delivers exactly that error through the
completion callback channel, and a successful run resolves the callback
with the data — so every outcome is delivered through the completion
callback channel, though the entry point itself re-throws rather than
never throwing. -/
theorem claim_c7_amended (canRun : Bool) (ph : PhaseSpec) (now : Nat)
    (j : Job) (h : j.startedAt = none) (hc : canRun = true) :
    ((∃ v, (executeJob canRun ph now j).1 = ExecResult.success v) ∨
      (∃ e, (executeJob canRun ph now j).1 = ExecResult.failureThrown e)) ∧
    (∀ e, (executeJob canRun ph now j).1 = ExecResult.failureThrown e →
      settleCallback (executeJob canRun ph now j).1 =
        CallbackSignal.rejected e ∧
      (executeJob canRun ph now j).2.1.status = JobStatus.completed ∧
      ExecEffect.loggedError ∈ (executeJob canRun ph now j).2.2 ∧
      ExecEffect.statFailed ∈ (executeJob canRun ph now j).2.2 ∧
      ExecEffect.statTotal ∈ (executeJob canRun ph now j).2.2) ∧
    (∀ v, (executeJob canRun ph now j).1 = ExecResult.success v →
      settleCallback (executeJob canRun ph now j).1 =
        CallbackSignal.resolved v ∧
      (executeJob canRun ph now j).2.1.status = JobStatus.completed) := by
  subst hc
  have hns : j.startedAt.isSome = false := by rw [h]; rfl
  rcases hval : ph.validate with ev | uv
  · refine ⟨Or.inr ⟨ev, ?_⟩, ?_, ?_⟩ <;>
      simp [executeJob, hns, hval, settleCallback, finishJob]
  · rcases hauth : ph.authorize with ea | ua
    · refine ⟨Or.inr ⟨ea, ?_⟩, ?_, ?_⟩ <;>
        simp [executeJob, hns, hval, hauth, settleCallback, finishJob]
    · rcases hrun : ph.run with er | vr
      · refine ⟨Or.inr ⟨er, ?_⟩, ?_, ?_⟩ <;>
          simp [executeJob, hns, hval, hauth, hrun, settleCallback,
            finishJob]
      · refine ⟨Or.inl ⟨vr, ?_⟩, ?_, ?_⟩ <;>
          simp [executeJob, hns, hval, hauth, hrun, settleCallback,
            finishJob]

/-- Witness for C7, at a concrete job whose execute phase throws. -/
theorem claim_c7_witness :
    ((∃ v, (executeJob true phFail 5 freshJob).1 = ExecResult.success v) ∨
      (∃ e, (executeJob true phFail 5 freshJob).1 =
        ExecResult.failureThrown e)) ∧
    settleCallback (executeJob true phFail 5 freshJob).1 =
      CallbackSignal.rejected "boom" :=
  ⟨(claim_c7_amended true phFail 5 freshJob (by decide) rfl).1,
    ((claim_c7_amended true phFail 5 freshJob (by decide) rfl).2.1 "boom"
      (by decide)).1⟩

/-- C8: (1) every dispatch pass skips a queued unit whose target module
cannot run jobs while leaving it in the queued set, with its job object
untouched (so it is never converted to a failure) and its callback entry
retained; (2) once the module's status is STARTED, a dispatch pass that is
not paused and below the concurrency bound moves the unit — first of the
sorted queue — into the active set and starts its execution (status
ACTIVE, start time recorded); (3) a unit that has left the queue never
re-enters it in any run, so it is dispatched (and hence executed) at most
once. -/
theorem claim_c8_unavailable_skip_then_dispatch :
    (∀ (s : QueueState) (u : Nat), u ∈ s.queue →
      canRunJobs s.modules (jobModuleId s.jobs u) = false →
      u ∈ (processPass s).queue ∧
        findJob (processPass s).jobs u = findJob s.jobs u ∧
        (processPass s).callbacks = s.callbacks) ∧
    (∀ (s : QueueState) (u : Nat) (rest : List Nat),
      s.isPaused = false → s.activeJobs.length < s.concurrency →
      s.queue.Nodup → sortQueue s.jobs s.queue = u :: rest →
      canRunJobs s.modules (jobModuleId s.jobs u) = true →
      u ∈ (processPass s).activeJobs ∧
        ∀ j, findJob s.jobs u = some j →
          findJob (processPass s).jobs u = some (startJob s.now j)) ∧
    (∀ (mods : List (Nat × ModuleStatus)) (ops : List QOp) (op : QOp)
      (u : Nat) (j : Job),
      findJob (runOps mods ops).jobs u = some j →
      u ∉ (runOps mods ops).queue →
      u ∉ (runOps mods (ops ++ [op])).queue) := by
  refine ⟨?_, ?_, ?_⟩
  · intro s u hu hcr
    have hmain : u ∈ (processPass s).queue ∧
        findJob (processPass s).jobs u = findJob s.jobs u := by
      unfold processPass
      split
      · exact ⟨hu, rfl⟩
      · exact processLoop_skip s.modules s.concurrency s.now _ _ _ _ 0 u
          ((mem_sortQueue s.jobs s.queue u).mpr hu) hcr
    exact ⟨hmain.1, hmain.2, (processPass_fields s).2.2.1⟩
  · intro s u rest hp hlen hnd hsort hcan
    have hqne : s.queue.isEmpty = false := by
      cases hq : s.queue with
      | nil =>
        rw [hq] at hsort
        simp [sortQueue] at hsort
      | cons a l => rfl
    have hnotin : u ∉ rest := by
      have := sortQueue_nodup s.jobs s.queue hnd
      rw [hsort] at this
      exact (List.nodup_cons.mp this).1
    unfold processPass
    have hguard : (s.isPaused ||
        decide (s.concurrency ≤ s.activeJobs.length) ||
        s.queue.isEmpty) = false := by
      rw [hp, hqne, decide_eq_false (by omega)]
      rfl
    rw [hguard]
    simp only [Bool.false_eq_true, if_neg, not_false_iff]
    rw [hsort]
    exact processLoop_head s.modules s.concurrency s.now rest.length u rest
      s.activeJobs s.jobs hcan hnotin
  · intro mods ops op u j hreg hq
    rw [runOps_snoc]
    intro hmem
    rcases queue_no_new (runOps mods ops) op u hmem with hl | hr
    · exact hq hl
    · have hmemj : j ∈ (runOps mods ops).jobs :=
        List.mem_of_find?_eq_some hreg
      have hju : j.uuid = u := by
        have := List.find?_some hreg
        simpa using this
      have := (inv_run mods ops).jLt j hmemj
      rw [hju] at this
      omega

/-- Witness for C8: a unit targeting a STOPPED module survives a pass
untouched; after the module is marked STARTED the next pass activates it;
and a dispatched unit does not re-enter the queue. -/
theorem claim_c8_witness :
    0 ∈ (processPass (runOps [(0, ModuleStatus.stopped)]
      [QOp.queueJob 0 none])).queue ∧
    0 ∈ (processPass (runOps [(0, ModuleStatus.stopped)]
      [QOp.queueJob 0 none, QOp.resume,
        QOp.setModuleStatus 0 ModuleStatus.started])).activeJobs ∧
    0 ∉ (runOps mods0 (opsTwoJobs ++ [QOp.pause])).queue := by
  refine ⟨?_, ?_, ?_⟩
  · exact (claim_c8_unavailable_skip_then_dispatch.1
      (runOps [(0, ModuleStatus.stopped)] [QOp.queueJob 0 none]) 0
      (by decide) (by decide)).1
  · exact (claim_c8_unavailable_skip_then_dispatch.2.1
      (runOps [(0, ModuleStatus.stopped)]
        [QOp.queueJob 0 none, QOp.resume,
          QOp.setModuleStatus 0 ModuleStatus.started]) 0 []
      (by decide) (by decide) (by decide) (by decide) (by decide)).1
  · exact claim_c8_unavailable_skip_then_dispatch.2.2 mods0 opsTwoJobs
      QOp.pause 0
      { uuid := 0, priority := 1, moduleId := 0, hasCallbackRef := false,
        status := JobStatus.active, createdAt := 0, startedAt := some 3,
        completedAt := none }
      (by decide) (by decide)

/-- C9 counterexample: the claim says the constructed unit's priority
equals `options.priority` whenever it is provided; providing priority 0
yields a unit with the default priority 1 instead, because the constructor
guards the assignment with JavaScript truthiness (`if (priority)`). -/
theorem claim_c9_counterexample :
    opts0.priority = some 0 ∧ (mkJob 0 0 0 (some opts0)).priority = 1 ∧
      (1 : Int) ≠ 0 := by
  decide

/-- C9 as amended: the constructed unit's priority equals
`options.priority` whenever that value is provided and truthy (nonzero);
when it is absent, or provided as the falsy value 0, the priority is the
default constant 1. -/
theorem claim_c9_amended (uuid now m : Nat) (o : JobOptions) (p : Int) :
    (mkJob uuid now m none).priority = 1 ∧
    (o.priority = none → (mkJob uuid now m (some o)).priority = 1) ∧
    (o.priority = some p → p ≠ 0 →
      (mkJob uuid now m (some o)).priority = p) ∧
    (o.priority = some 0 → (mkJob uuid now m (some o)).priority = 1) := by
  refine ⟨rfl, ?_, ?_, ?_⟩
  · intro h
    cases hsp : (o.hasSession || o.hasSocketId) <;>
      simp [mkJob, h, hsp]
  · intro h hp
    cases hsp : (o.hasSession || o.hasSocketId) <;>
      simp [mkJob, h, hp, hsp]
  · intro h
    cases hsp : (o.hasSession || o.hasSocketId) <;>
      simp [mkJob, h, hsp]

/-- Witness for C9, at concrete options with priority 5, priority 0 and no
priority. -/
theorem claim_c9_witness :
    (mkJob 4 2 0 (some opts5)).priority = 5 ∧
      (mkJob 0 0 0 (some opts0)).priority = 1 ∧
      (mkJob 1 1 0 none).priority = 1 :=
  ⟨(claim_c9_amended 4 2 0 opts5 5).2.2.1 rfl (by decide),
    (claim_c9_amended 0 0 0 opts0 5).2.2.2 rfl,
    (claim_c9_amended 1 1 0 opts0 5).1⟩

/-- C10: no scheduler operation ever removes a unit from the `_jobs`
registry: after any further sequence of events, `getJob` still finds a job
object with the same uuid, priority, module and creation time (its status
may meanwhile have advanced to COMPLETED), for the remaining lifetime of
the queue. -/
theorem claim_c10_registry_persistent (mods : List (Nat × ModuleStatus))
    (ops more : List QOp) (u : Nat) (j : Job)
    (h : findJob (runOps mods ops).jobs u = some j) :
    ∃ j2, findJob (runOps mods (ops ++ more)).jobs u = some j2 ∧
      sameIdentity j j2 := by
  induction more generalizing ops j with
  | nil =>
    rw [List.append_nil]
    exact ⟨j, h, rfl, rfl, rfl, rfl⟩
  | cons op rest ih =>
    obtain ⟨j2, hj2, hid⟩ := persist_step (runOps mods ops) op u j h
    rw [← runOps_snoc] at hj2
    obtain ⟨j3, hj3, hid2⟩ := ih (ops ++ [op]) j2 hj2
    rw [List.append_assoc] at hj3
    refine ⟨j3, by simpa using hj3, ?_⟩
    exact ⟨hid2.1.trans hid.1, hid2.2.1.trans hid.2.1,
      hid2.2.2.1.trans hid.2.2.1, hid2.2.2.2.trans hid.2.2.2⟩

/-- Witness for C10: the unit submitted first is still found by `getJob`
with its identity fields after being dispatched and completed. -/
theorem claim_c10_witness :
    ∃ j2, findJob (runOps mods0
      ([QOp.queueJob 0 none] ++ [QOp.resume, QOp.complete 0])).jobs 0 =
        some j2 ∧ sameIdentity freshJob j2 :=
  claim_c10_registry_persistent mods0 [QOp.queueJob 0 none]
    [QOp.resume, QOp.complete 0] 0 freshJob (by decide)

end Musare
